import Mathlib

/-!
# Verification of the turn-resolution core

Shallow embedding of the turn-resolution core of the roguelike
(`components/ai.py`, `engine.py`, `input_handlers.py`) and proofs about it.

Conventions of the embedding:
* grid cells are `Int × Int` pairs `(x, y)`;
* the tcod `int32` "maximum finite value" sentinel used by `tcod.path.maxarray`
  for impassable / not-yet-reached distance entries is modelled as `Option.none`
  (true infinity), finite distances as `some v : Option Nat`;
* numpy arrays are modelled as total functions from cells;
* Python exceptions (`exceptions.Impossible`) are modelled with `Except`;
* the `random.choice` over the eight compass directions is modelled by an
  explicit index `Fin 8` into the same direction list the source uses.
-/

/-- A grid cell, `(x, y)`. -/
abbrev Pos := Int × Int

/-! ## Distance values: `Option Nat` with `none` as infinity -/

/-- Addition of an edge weight to a distance; `none` (infinity) absorbs. -/
def oadd : Option Nat → Nat → Option Nat
  | none, _ => none
  | some v, w => some (v + w)

/-- Minimum of two distances, `none` being the top element. -/
def omin : Option Nat → Option Nat → Option Nat
  | none, b => b
  | some v, none => some v
  | some v, some w => some (min v w)

/-- Strict order on distances: every finite value is below `none`. -/
def oLt : Option Nat → Option Nat → Prop
  | some v, some w => v < w
  | some _, none => True
  | none, _ => False

/-- Non-strict order on distances. -/
def oLe (a b : Option Nat) : Prop := ¬ oLt b a

instance : ∀ a b : Option Nat, Decidable (oLt a b)
  | some v, some w => (inferInstance : Decidable (v < w))
  | some _, none => .isTrue trivial
  | none, some _ => .isFalse (fun h => h)
  | none, none => .isFalse (fun h => h)

instance (a b : Option Nat) : Decidable (oLe a b) :=
  inferInstanceAs (Decidable (¬ oLt b a))

theorem oLt_iff {a b : Option Nat} :
    oLt a b ↔ ∃ v, a = some v ∧ (∀ w, b = some w → v < w) := by
  cases a <;> cases b <;> simp [oLt]

theorem oLe_refl (a : Option Nat) : oLe a a := by
  cases a <;> simp [oLe, oLt]

theorem oLe_some_iff {a : Option Nat} {m : Nat} :
    oLe a (some m) ↔ ∃ u, a = some u ∧ u ≤ m := by
  cases a <;> simp [oLe, oLt, Nat.not_lt]

theorem oLe_none (a : Option Nat) : oLe a none := by
  cases a <;> simp [oLe, oLt]

theorem oLe_trans {a b c : Option Nat} (hab : oLe a b) (hbc : oLe b c) : oLe a c := by
  cases a <;> cases b <;> cases c <;>
    simp [oLe, oLt, Nat.not_lt] at * <;> omega

theorem oLt_of_oLe_of_oLt {a b c : Option Nat} (hab : oLe a b) (hbc : oLt b c) :
    oLt a c := by
  cases a <;> cases b <;> cases c <;>
    simp [oLe, oLt, Nat.not_lt] at * <;> omega

theorem oLe_of_oLt {a b : Option Nat} (h : oLt a b) : oLe a b := by
  cases a <;> cases b <;> simp [oLe, oLt, Nat.not_lt] at * <;> omega

theorem oLt_some_iff {a : Option Nat} {m : Nat} :
    oLt a (some m) ↔ ∃ u, a = some u ∧ u < m := by
  cases a <;> simp [oLt]

theorem zero_oLe (a : Option Nat) : oLe (some 0) a := by
  cases a <;> simp [oLe, oLt]

theorem oLe_zero_iff {a : Option Nat} : oLe a (some 0) ↔ a = some 0 := by
  cases a <;> simp [oLe, oLt, Nat.not_lt]

theorem omin_le_left (a b : Option Nat) : oLe (omin a b) a := by
  cases a <;> cases b <;> simp [omin, oLe, oLt, Nat.not_lt] <;> omega

theorem omin_cases (a b : Option Nat) : omin a b = a ∨ omin a b = b := by
  cases a <;> cases b <;> simp [omin] <;> omega

theorem oadd_eq_some {a : Option Nat} {w v : Nat} (h : oadd a w = some v) :
    ∃ u, a = some u ∧ u + w = v := by
  cases a <;> simp [oadd] at h ⊢; omega

/-! ## The cost grid and pathfinding (`BaseAI.get_path_to`, ai.py lines 20-35)

`tcod.path.dijkstra2d(dist, cost, 2, 3)` relaxes the distance array over the
8-neighbourhood: entering a cell `c` costs `cost c * 2` for a cardinal move and
`cost c * 3` for a diagonal move, and cells with `cost c = 0` are never
entered.  Running the library call to completion computes the least fixpoint
of one-step relaxation; since all edge weights are ≥ 2, every shortest walk is
a simple path with fewer than `width*height` edges, so `width*height`
simultaneous relaxation passes reach that fixpoint.  The embedding iterates
the relaxation pass exactly `width*height` times. -/

/-- A cost grid: the per-turn walkability/occupancy array with its dimensions. -/
structure CostGrid where
  width : Nat
  height : Nat
  cost : Pos → Nat

/-- Bounds check, mirroring the implicit numpy array bounds. -/
def inB (g : CostGrid) (c : Pos) : Bool :=
  0 ≤ c.1 && c.1 < (g.width : Int) && 0 ≤ c.2 && c.2 < (g.height : Int)

/-- The eight neighbour offsets, in the fixed scan order W, E, N, S, NW, NE,
SW, SE used for tie-breaking in the hill-climb. -/
def neighborDeltas : List Pos :=
  [(-1, 0), (1, 0), (0, -1), (0, 1), (-1, -1), (1, -1), (-1, 1), (1, 1)]

/-- The in-bounds 8-neighbours of a cell, in scan order. -/
def neighborsIn (g : CostGrid) (c : Pos) : List Pos :=
  (neighborDeltas.map (fun d => (c.1 + d.1, c.2 + d.2))).filter (inB g)

/-- Chebyshev distance between two cells. -/
def chebDist (a b : Pos) : Nat := max (a.1 - b.1).natAbs (a.2 - b.2).natAbs

/-- Cardinal moves are weighted 2, diagonal moves 3
(the `2, 3` arguments of `dijkstra2d`). -/
def moveMult (a b : Pos) : Nat := if a.1 = b.1 ∨ a.2 = b.2 then 2 else 3

/-- One relaxation of the distance at cell `c`: the minimum of its current
value and `dist n + cost c * mult` over the in-bounds neighbours `n`. -/
def relaxVal (g : CostGrid) (d : Pos → Option Nat) (c : Pos) : Option Nat :=
  ((neighborsIn g c).map (fun n => oadd (d n) (g.cost c * moveMult n c))).foldl omin (d c)

/-- One simultaneous relaxation pass; cells with cost 0 are never entered. -/
def relaxStep (g : CostGrid) (d : Pos → Option Nat) : Pos → Option Nat := fun c =>
  if inB g c = true ∧ 0 < g.cost c then relaxVal g d c else d c

/-- `tcod.path.maxarray` followed by `dist[src] = 0`: infinity everywhere
except the seed. -/
def seedDist (src : Pos) : Pos → Option Nat := fun c =>
  if c = src then some 0 else none

/-- The distance field computed by `dijkstra2d` run to completion, seeded at
`src` (ai.py lines 27-30). -/
def dijkstraMap (g : CostGrid) (src : Pos) : Pos → Option Nat :=
  (relaxStep g)^[g.width * g.height] (seedDist src)

/-- Accumulator step selecting the neighbour with the strictly smallest
distance seen so far (first one wins ties, matching the scan order). -/
def better (d : Pos → Option Nat) (acc : Option Pos) (n : Pos) : Option Pos :=
  match acc with
  | none => some n
  | some m => if oLt (d n) (d m) then some n else some m

/-- The neighbour of `c` with the smallest distance value, if any. -/
def bestNeighbor (g : CostGrid) (d : Pos → Option Nat) (c : Pos) : Option Pos :=
  (neighborsIn g c).foldl (better d) none

/-- Greedy strict descent of the distance field from `c`
(`tcod.path.hillclimb2d` with both cardinal and diagonal moves), fuelled.
The fuel argument only serves termination: each step strictly decreases the
finite current distance value, so any fuel exceeding that value is enough,
and the wrappers below always supply such fuel. -/
def descend (g : CostGrid) (d : Pos → Option Nat) (fuel : Nat) (c : Pos) : List Pos :=
  match fuel with
  | 0 => [c]
  | fuel' + 1 =>
    match bestNeighbor g d c, d c with
    | some n, some v =>
      match d n with
      | some w => if w < v then c :: descend g d fuel' n else [c]
      | none => [c]
    | _, _ => [c]

/-- `tcod.path.hillclimb2d(dist, start, True, True)`: the greedy descent path
from `start`, including `start` itself.  A start cell at infinity steps to its
smallest finite neighbour, if any. -/
def hillclimb (g : CostGrid) (d : Pos → Option Nat) (start : Pos) : List Pos :=
  match d start with
  | some v => descend g d (v + 1) start
  | none =>
    match bestNeighbor g d start with
    | some n =>
      match d n with
      | some w => start :: descend g d (w + 1) n
      | none => [start]
    | none => [start]

/-- The dijkstra + hillclimb + `path.pop()` pipeline of `get_path_to`
(ai.py lines 27-35) over an arbitrary cost grid: seed the distance field at
the walker `src`, hill-climb from the destination `dst`, and drop the final
element (the walker's own cell). -/
def getPathOn (g : CostGrid) (src dst : Pos) : List Pos :=
  (hillclimb g (dijkstraMap g src) dst).dropLast

/-! ## Building the cost grid (ai.py lines 21-25) -/

/-- The fields of an entity that `get_path_to` reads. -/
structure EntityRec where
  x : Int
  y : Int
  blocks_movement : Bool

/-- `cost = np.array(tiles["walkable"], dtype=np.int8)` followed by the loop
zeroing the cell of every entity with `blocks_movement` whose cell is still
nonzero. -/
def buildCost (walkable : Pos → Bool) (entities : List EntityRec) : Pos → Nat :=
  entities.foldl
    (fun cost e =>
      if e.blocks_movement ∧ cost (e.x, e.y) ≠ 0 then
        fun c => if c = (e.x, e.y) then 0 else cost c
      else cost)
    (fun c => if walkable c then 1 else 0)

/-- `BaseAI.get_path_to(dest_x, dest_y)` (ai.py lines 20-35): build the cost
grid from the map and the entity list, then run the pipeline.  The `dest`
argument is unused by the source, which hill-climbs from the engine's player
position instead; the embedding keeps that quirk. -/
def get_path_to (width height : Nat) (walkable : Pos → Bool)
    (entities : List EntityRec) (selfPos playerPos : Pos) (dest : Pos) : List Pos :=
  getPathOn ⟨width, height, buildCost walkable entities⟩ selfPos playerPos

/-! ## ConfusedEnemy.perform (ai.py lines 46-68) -/

/-- The direction list of `ConfusedEnemy.perform`, in source order. -/
def directions : List (Int × Int) :=
  [(-1, -1), (0, -1), (1, -1), (-1, 0), (1, 0), (-1, 1), (0, 1), (1, 1)]

/-- Observable outcome of one `ConfusedEnemy.perform` call. -/
structure ConfusedResult where
  expiryMessage : Bool
  restored : Bool
  action : Option (Int × Int)
  turns' : Int
  deriving DecidableEq, Repr

/-- `ConfusedEnemy.perform`: on `turns_remaining <= 0` log the expiry message
and restore `previous_ai` (performing no action); otherwise decrement and
perform a Bump in the direction chosen by `random.choice`, modelled by the
index `choice`. -/
def confusedPerform (turns_remaining : Int) (choice : Fin 8) : ConfusedResult :=
  if turns_remaining ≤ 0 then
    { expiryMessage := true, restored := true, action := none, turns' := turns_remaining }
  else
    { expiryMessage := false, restored := false,
      action := some (directions.get ⟨choice.val, choice.isLt⟩),
      turns' := turns_remaining - 1 }

/-! ## HostileEnemy.perform (ai.py lines 76-94) -/

/-- The state `HostileEnemy.perform` reads and writes. -/
structure HostileState where
  pos : Pos
  player : Pos
  activated : Bool
  path : List Pos

/-- Action returned by one `HostileEnemy.perform` call. -/
inductive HAct
  | melee (dx dy : Int)
  | move (dx dy : Int)
  | wait
  deriving DecidableEq, Repr

/-- The `if self.path:` tail of `HostileEnemy.perform`: pop the last cached
cell and move toward it, else wait. -/
def hostileWalk (pos : Pos) (path : List Pos) : HAct × List Pos :=
  match path.getLast? with
  | some dest => (.move (dest.1 - pos.1) (dest.2 - pos.2), path.dropLast)
  | none => (.wait, path)

/-- `HostileEnemy.perform`: when activated, melee at Chebyshev distance ≤ 1,
otherwise recompute the cached path; then walk the cached path or wait.
The map data needed by `get_path_to` is passed explicitly. -/
def hostilePerform (width height : Nat) (walkable : Pos → Bool)
    (entities : List EntityRec) (s : HostileState) : HAct × List Pos :=
  let dx := s.player.1 - s.pos.1
  let dy := s.player.2 - s.pos.2
  let distance := max dx.natAbs dy.natAbs
  if s.activated then
    if distance ≤ 1 then (.melee dx dy, s.path)
    else
      hostileWalk s.pos
        (get_path_to width height walkable entities s.pos s.player s.player)
  else
    hostileWalk s.pos s.path

/-- Iterating `HostileEnemy.perform` on a never-activated actor, threading the
cached path through the state. -/
def hostileRun (width height : Nat) (walkable : Pos → Bool)
    (entities : List EntityRec) (s : HostileState) : Nat → HostileState
  | 0 => s
  | n + 1 =>
    let s' := hostileRun width height walkable entities s n
    { s' with path := (hostilePerform width height walkable entities s').2 }

/-! ## Engine.handle_enemy_turns (engine.py lines 30-43) -/

/-- The fields of an actor that `handle_enemy_turns` reads. -/
structure ActorRec where
  isPlayer : Bool
  hasAI : Bool

/-- `Engine.handle_enemy_turns`: build a walkability cost array and a Dijkstra
distance field seeded at the player (both locals that nothing reads), then let
every non-player actor with an AI perform, swallowing `Impossible`.  The
per-actor behaviour is the parameter `performAI`; `σ` is the mutable game
state it acts on.  The source iterates `set(actors) - {player}`, whose order
is unspecified; the embedding uses the given list order. -/
def handle_enemy_turns {σ : Type} (width height : Nat) (walkable : Pos → Bool)
    (playerPos : Pos) (actors : List ActorRec)
    (performAI : ActorRec → σ → Except String σ) (s : σ) : σ :=
  let cost : Pos → Nat := fun c => if walkable c then 1 else 0
  let dist := dijkstraMap ⟨width, height, cost⟩ playerPos
  (actors.filter (fun a => !a.isPlayer)).foldl
    (fun st a =>
      if a.hasAI then
        match performAI a st with
        | .ok st' => st'
        | .error _ => st
      else st)
    s

/-- The claimed observational equivalent: only iterate over the non-player
actors and call each one's AI, swallowing `Impossible`. -/
def enemyTurnsOnly {σ : Type} (actors : List ActorRec)
    (performAI : ActorRec → σ → Except String σ) (s : σ) : σ :=
  (actors.filter (fun a => !a.isPlayer)).foldl
    (fun st a =>
      if a.hasAI then
        match performAI a st with
        | .ok st' => st'
        | .error _ => st
      else st)
    s

/-! ## EventHandler.handle_action / handle_events
(input_handlers.py lines 111-138) -/

/-- The engine state that `handle_action` touches, with the enemy, visibility
and exploration data abstract.  Only the message log is ever written on the
failure path. -/
structure EngineState (ε : Type) where
  log : List String
  rest : ε

/-- `EventHandler.handle_action`: `None` consumes no turn; a perform raising
`Impossible` logs the message and consumes no turn; a successful perform runs
the enemy turns and the FOV update and consumes the turn. -/
def handle_action {ε : Type}
    (perform : Option (EngineState ε → Except String (EngineState ε)))
    (enemyTurns updateFov : EngineState ε → EngineState ε)
    (s : EngineState ε) : Bool × EngineState ε :=
  match perform with
  | none => (false, s)
  | some p =>
    match p s with
    | .error msg => (false, { s with log := s.log ++ [msg] })
    | .ok s' => (true, updateFov (enemyTurns s'))

/-- The next active handler as computed by `EventHandler.handle_events`. -/
inductive NextHandler
  | stay
  | mainGame
  | gameOver
  deriving DecidableEq, Repr

/-- The action branch of `EventHandler.handle_events`: on a consumed turn
switch to `MainGameEventHandler` (or `GameOverEventHandler` if the player
died); otherwise keep the current handler. -/
def handle_events_action {ε : Type}
    (perform : Option (EngineState ε → Except String (EngineState ε)))
    (enemyTurns updateFov : EngineState ε → EngineState ε)
    (alive : EngineState ε → Bool)
    (s : EngineState ε) : NextHandler × EngineState ε :=
  match handle_action perform enemyTurns updateFov s with
  | (true, s') => (if alive s' then .mainGame else .gameOver, s')
  | (false, s') => (.stay, s')

/-! ## SelectIndexHandler.ev_keydown (input_handlers.py lines 255-276) -/

/-- The sequential `modifier *= 5 / 10 / 20` stack of
`SelectIndexHandler.ev_keydown`. -/
def modifierStack (shift ctrl alt : Bool) : Int :=
  let m0 : Int := 1
  let m1 := if shift then m0 * 5 else m0
  let m2 := if ctrl then m1 * 10 else m1
  if alt then m2 * 20 else m2

/-- Movement-key branch of `SelectIndexHandler.ev_keydown`: displace the
remembered mouse cell by the key direction times the modifier stack, clamped
to the map bounds. -/
def selectIndexMove (width height : Nat) (mouse : Pos) (delta : Pos)
    (shift ctrl alt : Bool) : Pos :=
  let modifier := modifierStack shift ctrl alt
  let x := mouse.1 + delta.1 * modifier
  let y := mouse.2 + delta.2 * modifier
  (max 0 (min x ((width : Int) - 1)), max 0 (min y ((height : Int) - 1)))

/-! ## HistoryViewer.ev_keydown (input_handlers.py lines 414-433) -/

/-- Keys the history viewer distinguishes. -/
inductive HistKey
  | up
  | down
  | pageUp
  | pageDown
  | home
  | kEnd
  | other
  deriving DecidableEq, Repr

/-- The `CURSOR_Y_KEYS` table. -/
def cursorAdjust : HistKey → Option Int
  | .up => some (-1)
  | .down => some 1
  | .pageUp => some (-10)
  | .pageDown => some 10
  | _ => none

/-- `HistoryViewer.ev_keydown`: `some c` keeps the viewer active with cursor
`c`; `none` returns to `MainGameEventHandler`. -/
def historyKeydown (logLength cursor : Int) (k : HistKey) : Option Int :=
  match cursorAdjust k with
  | some adjust =>
    if adjust < 0 ∧ cursor = 0 then some (logLength - 1)
    else if adjust > 0 ∧ cursor = logLength - 1 then some 0
    else some (max 0 (min (cursor + adjust) (logLength - 1)))
  | none =>
    match k with
    | .home => some 0
    | .kEnd => some (logLength - 1)
    | _ => none

/-! ## InventoryEventHandler.ev_keydown (input_handlers.py lines 148-169 and
211-223) -/

/-- Outcome of a key press in the inventory screen. -/
inductive InvResult
  | selectItem (i : Nat)
  | invalidEntry
  | remainSilent
  | exitToMain
  deriving DecidableEq, Repr

/-- `tcod.event.K_a`. -/
def K_a : Int := 97

/-- The six modifier key syms ignored by `AskUserEventHandler.ev_keydown`
(SDL2 keycodes for LSHIFT, RSHIFT, LCTRL, RCTRL, LALT, RALT). -/
def modifierSyms : List Int :=
  [1073742049, 1073742053, 1073742048, 1073742052, 1073742050, 1073742054]

/-- `InventoryEventHandler.ev_keydown`: letters index the item list
(`index = key - K_a`, accepted when `0 <= index <= 26`), an out-of-range
index logs "Invalid entry." and stays, and all other keys fall through to
`AskUserEventHandler.ev_keydown`, which ignores modifier syms and otherwise
exits to `MainGameEventHandler`. -/
def inventoryKeydown (numItems : Nat) (key : Int) : InvResult :=
  let index := key - K_a
  if 0 ≤ index ∧ index ≤ 26 then
    if index < (numItems : Int) then .selectItem index.toNat else .invalidEntry
  else if key ∈ modifierSyms then .remainSilent
  else .exitToMain

/-- `AskUserEventHandler.ev_mousebuttondown` (inherited by the inventory
screen): any click exits to `MainGameEventHandler`. -/
def inventoryMouse : InvResult := .exitToMain

/-! ## Passable routes and the descent invariant -/

/-- One step of a passable route: `b` is an in-bounds 8-neighbour of `a` and
can be entered (`cost b > 0`). -/
def adjStep (g : CostGrid) (a b : Pos) : Prop :=
  b ∈ neighborsIn g a ∧ 0 < g.cost b

instance (g : CostGrid) (a b : Pos) : Decidable (adjStep g a b) :=
  inferInstanceAs (Decidable (b ∈ neighborsIn g a ∧ 0 < g.cost b))

/-- There is a passable route from `src` to `dst`: a non-empty chain of
passable steps leaving `src` and ending at `dst`.  The cells entered along
the route (every cell but `src` itself) all have positive cost. -/
def HasRoute (g : CostGrid) (src dst : Pos) : Prop :=
  ∃ rest : List Pos, rest ≠ [] ∧ List.Chain (adjStep g) src rest ∧
    rest.getLast? = some dst

/-- Invariant of a relaxed distance field seeded at `src`: every cell with a
finite value other than the seed is in bounds, enterable, and has a strictly
closer in-bounds neighbour. -/
def DescInv (g : CostGrid) (src : Pos) (d : Pos → Option Nat) : Prop :=
  ∀ c v, c ≠ src → d c = some v →
    inB g c = true ∧ 0 < g.cost c ∧ ∃ n ∈ neighborsIn g c, oLt (d n) (some v)

/-- The finset of in-bounds cells of a grid. -/
def gridBox (g : CostGrid) : Finset Pos :=
  Finset.Ico (0 : Int) (g.width : Int) ×ˢ Finset.Ico (0 : Int) (g.height : Int)

/-! ## Characterisation of the cost grid builder -/

/-- Unfolding of the zeroing loop of `get_path_to` for an arbitrary initial
cost array: a cell is zero afterwards exactly when some blocking entity
stands on it or it was zero already. -/
theorem buildCost_foldl_eq (entities : List EntityRec) (f : Pos → Nat) (c : Pos) :
    (entities.foldl
      (fun cost e =>
        if e.blocks_movement ∧ cost (e.x, e.y) ≠ 0 then
          fun c' => if c' = (e.x, e.y) then 0 else cost c'
        else cost) f) c =
    if ∃ e ∈ entities, e.blocks_movement = true ∧ (e.x, e.y) = c then 0 else f c := by
  induction entities generalizing f with
  | nil => simp
  | cons e l ih =>
    rw [List.foldl_cons, ih]
    by_cases hl : ∃ e' ∈ l, e'.blocks_movement = true ∧ (e'.x, e'.y) = c
    · have hcons : ∃ e' ∈ e :: l, e'.blocks_movement = true ∧ (e'.x, e'.y) = c := by
        obtain ⟨e', he', h⟩ := hl
        exact ⟨e', List.mem_cons_of_mem _ he', h⟩
      rw [if_pos hl, if_pos hcons]
    · rw [if_neg hl]
      by_cases hb : e.blocks_movement = true ∧ f (e.x, e.y) ≠ 0
      · rw [if_pos hb]
        show (if c = (e.x, e.y) then 0 else f c) = _
        by_cases hc : c = (e.x, e.y)
        · have hcons : ∃ e' ∈ e :: l, e'.blocks_movement = true ∧ (e'.x, e'.y) = c :=
            ⟨e, List.mem_cons_self _ _, hb.1, hc.symm⟩
          rw [if_pos hc, if_pos hcons]
        · have hcons : ¬ ∃ e' ∈ e :: l, e'.blocks_movement = true ∧ (e'.x, e'.y) = c := by
            rintro ⟨e', he', hbl, hpos⟩
            rcases List.mem_cons.mp he' with rfl | hmem
            · exact hc hpos.symm
            · exact hl ⟨e', hmem, hbl, hpos⟩
          rw [if_neg hc, if_neg hcons]
      · rw [if_neg hb]
        by_cases hcons : ∃ e' ∈ e :: l, e'.blocks_movement = true ∧ (e'.x, e'.y) = c
        · rw [if_pos hcons]
          obtain ⟨e', he', hbl, hpos⟩ := hcons
          rcases List.mem_cons.mp he' with rfl | hmem
          · have hz : f (e'.x, e'.y) = 0 := by
              by_contra hnz
              exact hb ⟨hbl, hnz⟩
            rw [← hpos]
            exact hz
          · exact absurd ⟨e', hmem, hbl, hpos⟩ hl
        · rw [if_neg hcons]

/-- The cost grid built by `get_path_to`: 0 on every cell holding a blocking
entity and on every unwalkable cell, 1 elsewhere. -/
theorem buildCost_eq (walkable : Pos → Bool) (entities : List EntityRec) (c : Pos) :
    buildCost walkable entities c =
      if ∃ e ∈ entities, e.blocks_movement = true ∧ (e.x, e.y) = c then 0
      else if walkable c then 1 else 0 :=
  buildCost_foldl_eq entities _ c

/-! ## Claim theorems -/

/-- C2, counterexample: the claim asserts that the cost grid built by
`get_path_to` keeps the walking actor's own current cell passable (cost > 0).
On an all-walkable map whose entity list holds exactly the walker itself — a
blocking actor at `(1, 1)` — the built grid gives the walker's own cell cost
0, because the zeroing loop of ai.py lines 23-25 does not exempt
`self.entity`. -/
theorem buildCost_self_cell_cex :
    ¬ (0 < buildCost (fun _ => true) [⟨1, 1, true⟩] (1, 1)) := by decide

/-- C2, amended: the cost grid removes every cell occupied by a blocking
entity — the walking actor's own cell included — from the walkable grid; a
cell keeps its walkability-derived cost exactly when no blocking entity
stands on it. -/
theorem buildCost_blocks_everyone (walkable : Pos → Bool)
    (entities : List EntityRec) (c : Pos) :
    ((∃ e ∈ entities, e.blocks_movement = true ∧ (e.x, e.y) = c) →
      buildCost walkable entities c = 0) ∧
    ((¬ ∃ e ∈ entities, e.blocks_movement = true ∧ (e.x, e.y) = c) →
      buildCost walkable entities c = if walkable c then 1 else 0) := by
  constructor
  · intro h; rw [buildCost_eq, if_pos h]
  · intro h; rw [buildCost_eq, if_neg h]

/-- C2, amended, witness: on the all-walkable map with the blocking walker at
`(1, 1)` and a second blocking actor at `(2, 2)`, both occupied cells get
cost 0 and a free cell keeps cost 1. -/
theorem buildCost_blocks_everyone_witness :
    ((∃ e ∈ [(⟨1, 1, true⟩ : EntityRec), ⟨2, 2, true⟩],
        e.blocks_movement = true ∧ (e.x, e.y) = ((1 : Int), (1 : Int))) →
      buildCost (fun _ => true) [⟨1, 1, true⟩, ⟨2, 2, true⟩] (1, 1) = 0) ∧
    ((¬ ∃ e ∈ [(⟨1, 1, true⟩ : EntityRec), ⟨2, 2, true⟩],
        e.blocks_movement = true ∧ (e.x, e.y) = ((0 : Int), (0 : Int))) →
      buildCost (fun _ => true) [⟨1, 1, true⟩, ⟨2, 2, true⟩] (0, 0) =
        if (fun (_ : Pos) => true) ((0 : Int), (0 : Int)) then 1 else 0) :=
  ⟨(buildCost_blocks_everyone (fun _ => true) [⟨1, 1, true⟩, ⟨2, 2, true⟩] (1, 1)).1,
   (buildCost_blocks_everyone (fun _ => true) [⟨1, 1, true⟩, ⟨2, 2, true⟩] (0, 0)).2⟩

/-- C3, counterexample: the claim asserts that with `turns_remaining = 1` a
single `perform` call emits the expiry message, restores the previous
behaviour, and returns a random Bump.  At `turns_remaining = 1` (direction
index 0) the call emits no message, restores nothing, and only bumps: the
`turns_remaining <= 0` test of ai.py line 47 fails on 1, so the expiry branch
runs only on the following call. -/
theorem confusedPerform_one_cex :
    ¬ ((confusedPerform 1 (0 : Fin 8)).expiryMessage = true ∧
       (confusedPerform 1 (0 : Fin 8)).restored = true ∧
       (confusedPerform 1 (0 : Fin 8)).action ≠ none) := by decide

/-- C3, amended: with `turns_remaining = 1`, the first `perform` call returns
a uniformly random Bump and decrements the counter to 0 without any message;
the next call emits the "no longer confused" message and restores the
previous behaviour but performs no action.  Expiry and restoration happen in
the call after the one that decrements the counter to zero. -/
theorem confusedPerform_one_then_expiry (i j : Fin 8) :
    confusedPerform 1 i =
      { expiryMessage := false, restored := false,
        action := some (directions.get ⟨i.val, i.isLt⟩), turns' := 0 } ∧
    confusedPerform 0 j =
      { expiryMessage := true, restored := true, action := none, turns' := 0 } := by
  refine ⟨?_, ?_⟩ <;> simp [confusedPerform]

/-- C4: an activated hostile actor at Chebyshev distance at most 1 from the
player immediately returns Melee with the exact deltas and leaves the cached
path untouched; the path recomputation branch is never reached, whatever the
cache holds. -/
theorem hostile_adjacent_melee (width height : Nat) (walkable : Pos → Bool)
    (entities : List EntityRec) (s : HostileState)
    (hact : s.activated = true)
    (hdist : max (s.player.1 - s.pos.1).natAbs (s.player.2 - s.pos.2).natAbs ≤ 1) :
    hostilePerform width height walkable entities s =
      (.melee (s.player.1 - s.pos.1) (s.player.2 - s.pos.2), s.path) := by
  simp [hostilePerform, hact, hdist]

/-- C4, witness: an activated actor at `(0, 0)` with the player at `(1, 1)`
(Chebyshev distance 1) and a stale cached path melees diagonally and keeps
the cache. -/
theorem hostile_adjacent_melee_witness :
    ({ pos := ((0 : Int), (0 : Int)), player := (1, 1), activated := true,
       path := [(5, 5), (4, 4)] } : HostileState).activated = true ∧
    max (((1 : Int) - 0).natAbs) (((1 : Int) - 0).natAbs) ≤ 1 ∧
    hostilePerform 10 10 (fun _ => true) []
      { pos := (0, 0), player := (1, 1), activated := true, path := [(5, 5), (4, 4)] } =
      (.melee 1 1, [(5, 5), (4, 4)]) :=
  ⟨rfl, by decide,
   hostile_adjacent_melee 10 10 (fun _ => true) []
     { pos := (0, 0), player := (1, 1), activated := true, path := [(5, 5), (4, 4)] }
     rfl (by decide)⟩

/-- C5: a hostile actor whose `activated` flag is false never recomputes or
clears the cached path: with a non-empty cache it pops the last cell and
returns Move with the delta from its current cell (so the new cache is the
old one minus its last element, whatever map data is supplied); with an empty
cache it returns Wait.  Iterating such turns consumes the stale cache one
element per turn until exhausted. -/
theorem hostile_inactive_walks_cache (width height : Nat) (walkable : Pos → Bool)
    (entities : List EntityRec) (s : HostileState) (hact : s.activated = false) :
    (∀ dest, s.path.getLast? = some dest →
      hostilePerform width height walkable entities s =
        (.move (dest.1 - s.pos.1) (dest.2 - s.pos.2), s.path.dropLast)) ∧
    (s.path = [] →
      hostilePerform width height walkable entities s = (.wait, [])) ∧
    (∀ n, (hostileRun width height walkable entities s n).path =
      (fun p => List.dropLast p)^[n] s.path) := by
  refine ⟨?_, ?_, ?_⟩
  · intro dest hdest
    simp [hostilePerform, hact, hostileWalk, hdest]
  · intro hpath
    simp [hostilePerform, hact, hostileWalk, hpath]
  · have hstep : ∀ t : HostileState, t.activated = false →
        (hostilePerform width height walkable entities t).2 = t.path.dropLast := by
      intro t ht
      simp only [hostilePerform, ht, Bool.false_eq_true, if_false, hostileWalk]
      cases hlast : t.path.getLast? with
      | none =>
        have hnil : t.path = [] := List.getLast?_eq_none_iff.mp hlast
        simp [hnil]
      | some dest => simp
    have hinv : ∀ n, (hostileRun width height walkable entities s n).activated = false ∧
        (hostileRun width height walkable entities s n).path =
          (fun p => List.dropLast p)^[n] s.path := by
      intro n
      induction n with
      | zero => exact ⟨hact, rfl⟩
      | succ n ih =>
        refine ⟨ih.1, ?_⟩
        simp only [hostileRun, hstep _ ih.1, Function.iterate_succ_apply', ih.2]
    exact fun n => (hinv n).2

/-- C5, witness: an inactive actor at `(0, 0)` with cached path
`[(3, 3), (2, 2)]` pops `(2, 2)` and moves by `(2, 2)`; with an empty cache it
waits; two iterated turns exhaust the two-element cache. -/
theorem hostile_inactive_walks_cache_witness :
    (∀ dest, ([((3 : Int), (3 : Int)), (2, 2)] : List Pos).getLast? = some dest →
      hostilePerform 10 10 (fun _ => true) []
        { pos := (0, 0), player := (9, 9), activated := false, path := [(3, 3), (2, 2)] } =
        (.move (dest.1 - 0) (dest.2 - 0), ([((3 : Int), (3 : Int)), (2, 2)] : List Pos).dropLast)) ∧
    (([((3 : Int), (3 : Int)), (2, 2)] : List Pos) = [] →
      hostilePerform 10 10 (fun _ => true) []
        { pos := (0, 0), player := (9, 9), activated := false, path := [(3, 3), (2, 2)] } =
        (.wait, [])) ∧
    (∀ n, (hostileRun 10 10 (fun _ => true) []
        { pos := (0, 0), player := (9, 9), activated := false, path := [(3, 3), (2, 2)] } n).path =
      (fun p => List.dropLast p)^[n] [(3, 3), (2, 2)]) :=
  hostile_inactive_walks_cache 10 10 (fun _ => true) []
    { pos := (0, 0), player := (9, 9), activated := false, path := [(3, 3), (2, 2)] } rfl

/-- C6: when the player's action raises `Impossible`, `handle_action` adds
the error's message to the log and changes nothing else — the return value
`false` means the turn is not consumed, `handle_enemy_turns` and `update_fov`
(hence every enemy behaviour step and the visible/explored data in the
abstract remainder of the state) are never applied — and `handle_events`
keeps the current handler active. -/
theorem handle_action_impossible {ε : Type}
    (perform : EngineState ε → Except String (EngineState ε))
    (enemyTurns updateFov : EngineState ε → EngineState ε)
    (alive : EngineState ε → Bool) (s : EngineState ε) (msg : String)
    (hp : perform s = .error msg) :
    handle_action (some perform) enemyTurns updateFov s =
      (false, { s with log := s.log ++ [msg] }) ∧
    (handle_action (some perform) enemyTurns updateFov s).2.rest = s.rest ∧
    handle_events_action (some perform) enemyTurns updateFov alive s =
      (.stay, { s with log := s.log ++ [msg] }) := by
  refine ⟨?_, ?_, ?_⟩ <;> simp [handle_action, handle_events_action, hp]

/-- C6, witness: a player bumping into a wall — an action whose perform
always raises `Impossible "That way is blocked."` — on a state carrying an
abstract enemy/visibility component `0` logs the message, leaves the
component untouched, consumes no turn, and keeps the handler. -/
theorem handle_action_impossible_witness :
    handle_action (some (fun _ => .error "That way is blocked."))
        (fun t => { t with rest := t.rest + 1 }) (fun t => { t with rest := t.rest + 7 })
        ({ log := ["welcome"], rest := (0 : Nat) }) =
      (false, { log := ["welcome", "That way is blocked."], rest := 0 }) ∧
    (handle_action (some (fun _ => .error "That way is blocked."))
        (fun t => { t with rest := t.rest + 1 }) (fun t => { t with rest := t.rest + 7 })
        ({ log := ["welcome"], rest := (0 : Nat) })).2.rest = 0 ∧
    handle_events_action (some (fun _ => .error "That way is blocked."))
        (fun t => { t with rest := t.rest + 1 }) (fun t => { t with rest := t.rest + 7 })
        (fun _ => true) ({ log := ["welcome"], rest := (0 : Nat) }) =
      (.stay, { log := ["welcome", "That way is blocked."], rest := 0 }) :=
  handle_action_impossible (fun _ => .error "That way is blocked.")
    (fun t => { t with rest := t.rest + 1 }) (fun t => { t with rest := t.rest + 7 })
    (fun _ => true) { log := ["welcome"], rest := 0 } "That way is blocked." rfl

/-- C7: the SelectIndex cursor displacement multiplies the base direction by
5 under shift, by a further 10 under ctrl and a further 20 under alt — the
modifiers multiply (shift+ctrl gives 50, all three give 1000) — and the
resulting cursor is always clamped into `[0, width-1] × [0, height-1]`. -/
theorem selectIndex_modifier_clamp (width height : Nat) (mouse delta : Pos)
    (shift ctrl alt : Bool) (hW : 1 ≤ width) (hH : 1 ≤ height) :
    modifierStack shift ctrl alt =
      (if shift then 5 else 1) * (if ctrl then 10 else 1) * (if alt then 20 else 1) ∧
    modifierStack true true false = 50 ∧
    modifierStack true true true = 1000 ∧
    selectIndexMove width height mouse delta shift ctrl alt =
      (max 0 (min (mouse.1 + delta.1 * modifierStack shift ctrl alt) ((width : Int) - 1)),
       max 0 (min (mouse.2 + delta.2 * modifierStack shift ctrl alt) ((height : Int) - 1))) ∧
    (0 ≤ (selectIndexMove width height mouse delta shift ctrl alt).1 ∧
     (selectIndexMove width height mouse delta shift ctrl alt).1 ≤ (width : Int) - 1 ∧
     0 ≤ (selectIndexMove width height mouse delta shift ctrl alt).2 ∧
     (selectIndexMove width height mouse delta shift ctrl alt).2 ≤ (height : Int) - 1) := by
  refine ⟨?_, rfl, rfl, rfl, ?_⟩
  · cases shift <;> cases ctrl <;> cases alt <;> simp [modifierStack]
  · have hW' : (1 : Int) ≤ (width : Int) := by exact_mod_cast hW
    have hH' : (1 : Int) ≤ (height : Int) := by exact_mod_cast hH
    simp only [selectIndexMove]
    omega

/-- C7, witness: on a 10×8 map, from `(4, 4)` pressing direction `(1, -1)`
with shift and ctrl held moves by 50 and clamps to `(9, 0)`. -/
theorem selectIndex_modifier_clamp_witness :
    1 ≤ 10 ∧ 1 ≤ 8 ∧
    (modifierStack true true false =
        (if true then 5 else 1) * (if true then 10 else 1) * (if false then 20 else 1) ∧
      modifierStack true true false = 50 ∧
      modifierStack true true true = 1000 ∧
      selectIndexMove 10 8 (4, 4) (1, -1) true true false =
        (max 0 (min ((4 : Int) + 1 * modifierStack true true false) ((10 : Int) - 1)),
         max 0 (min ((4 : Int) + (-1) * modifierStack true true false) ((8 : Int) - 1))) ∧
      (0 ≤ (selectIndexMove 10 8 (4, 4) (1, -1) true true false).1 ∧
       (selectIndexMove 10 8 (4, 4) (1, -1) true true false).1 ≤ (10 : Int) - 1 ∧
       0 ≤ (selectIndexMove 10 8 (4, 4) (1, -1) true true false).2 ∧
       (selectIndexMove 10 8 (4, 4) (1, -1) true true false).2 ≤ (8 : Int) - 1)) :=
  ⟨by decide, by decide,
   selectIndex_modifier_clamp 10 8 (4, 4) (1, -1) true true false (by decide) (by decide)⟩

/-- C8: in the history viewer, for any log length ≥ 1: an upward key at
cursor 0 wraps to `log_length - 1`; a downward key at `log_length - 1` wraps
to 0; any cursor key from an interior position moves by its offset clamped
into `[0, log_length - 1]` (so page-up from an interior position stops at 0
and never wraps); home jumps to 0 and end to `log_length - 1`; and no cursor,
home or end key ever leaves the viewer. -/
theorem historyViewer_cursor_spec (logLength cursor a : Int) (k : HistKey)
    (hL : 1 ≤ logLength) :
    (cursorAdjust k = some a → a < 0 → cursor = 0 →
      historyKeydown logLength cursor k = some (logLength - 1)) ∧
    (cursorAdjust k = some a → 0 < a → cursor = logLength - 1 →
      historyKeydown logLength cursor k = some 0) ∧
    (cursorAdjust k = some a → 0 < cursor → cursor < logLength - 1 →
      historyKeydown logLength cursor k =
        some (max 0 (min (cursor + a) (logLength - 1)))) ∧
    (cursorAdjust k = some a → 0 < cursor → cursor < logLength - 1 →
      ∃ c, historyKeydown logLength cursor k = some c ∧ 0 ≤ c ∧ c ≤ logLength - 1) ∧
    historyKeydown logLength cursor .home = some 0 ∧
    historyKeydown logLength cursor .kEnd = some (logLength - 1) := by
  refine ⟨?_, ?_, ?_, ?_, rfl, rfl⟩
  · intro hk ha hc
    simp [historyKeydown, hk, ha, hc]
  · intro hk ha hc
    have hnot : ¬ (a < 0 ∧ cursor = 0) := by omega
    simp only [historyKeydown, hk]
    rw [if_neg (by omega), if_pos ⟨ha, hc⟩]
  · intro hk hc1 hc2
    simp only [historyKeydown, hk]
    rw [if_neg (by omega), if_neg (by omega)]
  · intro hk hc1 hc2
    simp only [historyKeydown, hk]
    rw [if_neg (by omega), if_neg (by omega)]
    exact ⟨_, rfl, by omega, by omega⟩

/-- C8, witness: with a 6-message log, page-up (`a = -10`) at cursor 0 wraps
to 5, page-down at cursor 5 wraps to 0, up at interior cursor 3 clamps to 2
and stays in `[0, 5]`, and home/end jump to 0 and 5. -/
theorem historyViewer_cursor_spec_witness :
    (cursorAdjust HistKey.pageUp = some (-10) → (-10 : Int) < 0 → (0 : Int) = 0 →
      historyKeydown 6 0 .pageUp = some 5) ∧
    (cursorAdjust HistKey.pageUp = some (-10) → (0 : Int) < -10 → (0 : Int) = 6 - 1 →
      historyKeydown 6 0 .pageUp = some 0) ∧
    (cursorAdjust HistKey.pageUp = some (-10) → (0 : Int) < 0 → (0 : Int) < 6 - 1 →
      historyKeydown 6 0 .pageUp = some (max 0 (min (0 + -10) (6 - 1)))) ∧
    (cursorAdjust HistKey.pageUp = some (-10) → (0 : Int) < 0 → (0 : Int) < 6 - 1 →
      ∃ c, historyKeydown 6 0 .pageUp = some c ∧ 0 ≤ c ∧ c ≤ 6 - 1) ∧
    historyKeydown 6 0 .home = some 0 ∧
    historyKeydown 6 0 .kEnd = some (6 - 1) :=
  historyViewer_cursor_spec 6 0 (-10) .pageUp (by decide)

/-- C9, counterexample: the claim asserts that every key outside a..z returns
control to MainPlay.  Two keys outside a..z refute it: sym 123 (one past `z`;
the source accepts `0 <= index <= 26`, an index range of 27) stays in the
inventory with the "Invalid entry." message, and the left-shift sym is
swallowed by `AskUserEventHandler.ev_keydown` and also stays. -/
theorem inventory_letters_cex :
    inventoryKeydown 0 123 ≠ InvResult.exitToMain ∧
    inventoryKeydown 0 1073742049 ≠ InvResult.exitToMain := by decide

/-- C9, amended: key syms 97..123 (a..z plus the sym one past z, 0-based
indices 0..26) are mapped to item indices; an index within the item count
selects that item, an out-of-range index shows "Invalid entry." and stays in
the inventory; outside that range the six modifier syms are ignored (the
handler stays), every other key returns to MainPlay, and any mouse click
returns to MainPlay. -/
theorem inventoryKeydown_spec (numItems : Nat) (key : Int) :
    (0 ≤ key - K_a → key - K_a ≤ 26 → key - K_a < (numItems : Int) →
      inventoryKeydown numItems key = .selectItem (key - K_a).toNat) ∧
    (0 ≤ key - K_a → key - K_a ≤ 26 → (numItems : Int) ≤ key - K_a →
      inventoryKeydown numItems key = .invalidEntry) ∧
    (¬ (0 ≤ key - K_a ∧ key - K_a ≤ 26) → key ∈ modifierSyms →
      inventoryKeydown numItems key = .remainSilent) ∧
    (¬ (0 ≤ key - K_a ∧ key - K_a ≤ 26) → key ∉ modifierSyms →
      inventoryKeydown numItems key = .exitToMain) ∧
    inventoryMouse = .exitToMain := by
  refine ⟨?_, ?_, ?_, ?_, rfl⟩
  · intro h1 h2 h3
    simp only [inventoryKeydown]
    rw [if_pos ⟨h1, h2⟩, if_pos h3]
  · intro h1 h2 h3
    simp only [inventoryKeydown]
    rw [if_pos ⟨h1, h2⟩, if_neg (by omega)]
  · intro h1 h2
    simp only [inventoryKeydown]
    rw [if_neg h1, if_pos h2]
  · intro h1 h2
    simp only [inventoryKeydown]
    rw [if_neg h1, if_neg h2]

/-- C9, amended, witness: with 3 items, `c` (sym 99) selects item 2, `e`
(sym 101) is out of range and shows "Invalid entry.", left-shift stays
silently, `ESC`-like sym 27 exits to MainPlay, and a mouse click exits. -/
theorem inventoryKeydown_spec_witness :
    ((0 : Int) ≤ 99 - K_a → (99 : Int) - K_a ≤ 26 → (99 : Int) - K_a < ((3 : Nat) : Int) →
      inventoryKeydown 3 99 = .selectItem ((99 : Int) - K_a).toNat) ∧
    ((99 : Int) - K_a < ((3 : Nat) : Int) → True) ∧
    ((0 : Int) ≤ 101 - K_a → (101 : Int) - K_a ≤ 26 → ((3 : Nat) : Int) ≤ (101 : Int) - K_a →
      inventoryKeydown 3 101 = .invalidEntry) ∧
    (¬ ((0 : Int) ≤ 1073742049 - K_a ∧ (1073742049 : Int) - K_a ≤ 26) →
      (1073742049 : Int) ∈ modifierSyms → inventoryKeydown 3 1073742049 = .remainSilent) ∧
    (¬ ((0 : Int) ≤ 27 - K_a ∧ (27 : Int) - K_a ≤ 26) → (27 : Int) ∉ modifierSyms →
      inventoryKeydown 3 27 = .exitToMain) ∧
    inventoryKeydown 3 99 = .selectItem 2 ∧
    inventoryKeydown 3 101 = .invalidEntry ∧
    inventoryKeydown 3 1073742049 = .remainSilent ∧
    inventoryKeydown 3 27 = .exitToMain :=
  ⟨(inventoryKeydown_spec 3 99).1, fun _ => trivial,
   (inventoryKeydown_spec 3 101).2.1,
   (inventoryKeydown_spec 3 1073742049).2.2.1,
   (inventoryKeydown_spec 3 27).2.2.2.1,
   (inventoryKeydown_spec 3 99).1 (by decide) (by decide) (by decide),
   (inventoryKeydown_spec 3 101).2.1 (by decide) (by decide) (by decide),
   (inventoryKeydown_spec 3 1073742049).2.2.1 (by decide) (by decide),
   (inventoryKeydown_spec 3 27).2.2.2.1 (by decide) (by decide)⟩

/-- C10: the walkability cost array and the Dijkstra distance field computed
at the start of `Engine.handle_enemy_turns` are dead locals; for every game
state and every per-actor behaviour, `handle_enemy_turns` equals the function
that only iterates over the non-player actors and lets each one's AI perform,
swallowing `Impossible`. -/
theorem handle_enemy_turns_equiv {σ : Type} (width height : Nat)
    (walkable : Pos → Bool) (playerPos : Pos) (actors : List ActorRec)
    (performAI : ActorRec → σ → Except String σ) (s : σ) :
    handle_enemy_turns width height walkable playerPos actors performAI s =
      enemyTurnsOnly actors performAI s := rfl

/-! ## Properties of the relaxation pass -/

theorem omin_le_right (a b : Option Nat) : oLe (omin a b) b := by
  cases a <;> cases b <;> simp [omin, oLe, oLt, Nat.not_lt] <;> omega

theorem foldl_omin_le_init (l : List (Option Nat)) (a : Option Nat) :
    oLe (l.foldl omin a) a := by
  induction l generalizing a with
  | nil => exact oLe_refl a
  | cons x l ih => exact oLe_trans (ih (omin a x)) (omin_le_left a x)

theorem foldl_omin_cases (l : List (Option Nat)) (a : Option Nat) :
    l.foldl omin a = a ∨ l.foldl omin a ∈ l := by
  induction l generalizing a with
  | nil => exact .inl rfl
  | cons x l ih =>
    rw [List.foldl_cons]
    rcases ih (omin a x) with h | h
    · rcases omin_cases a x with h' | h'
      · exact .inl (by rw [h, h'])
      · exact .inr (by rw [h, h']; exact List.mem_cons_self x l)
    · exact .inr (List.mem_cons_of_mem x h)

theorem foldl_omin_le_mem (l : List (Option Nat)) (a : Option Nat)
    {x : Option Nat} (hx : x ∈ l) : oLe (l.foldl omin a) x := by
  induction l generalizing a with
  | nil => cases hx
  | cons y l ih =>
    rw [List.foldl_cons]
    rcases List.mem_cons.mp hx with rfl | h
    · exact oLe_trans (foldl_omin_le_init l (omin a x)) (omin_le_right a x)
    · exact ih (omin a y) h

theorem relaxStep_anti (g : CostGrid) (d : Pos → Option Nat) (c : Pos) :
    oLe (relaxStep g d c) (d c) := by
  unfold relaxStep
  split
  · exact foldl_omin_le_init _ _
  · exact oLe_refl _

theorem iterate_relax_anti (g : CostGrid) (d0 : Pos → Option Nat) (c : Pos)
    {j m : Nat} (hjm : j ≤ m) :
    oLe ((relaxStep g)^[m] d0 c) ((relaxStep g)^[j] d0 c) := by
  induction m with
  | zero =>
    have hj : j = 0 := Nat.le_zero.mp hjm
    subst hj; exact oLe_refl _
  | succ m ih =>
    rcases Nat.lt_or_ge j (m + 1) with h | h
    · have hj : j ≤ m := Nat.lt_succ_iff.mp h
      refine oLe_trans ?_ (ih hj)
      rw [Function.iterate_succ_apply']
      exact relaxStep_anti g _ c
    · have hj : j = m + 1 := le_antisymm hjm h
      subst hj; exact oLe_refl _

theorem iterate_relax_seed (g : CostGrid) (src : Pos) (k : Nat) :
    (relaxStep g)^[k] (seedDist src) src = some 0 := by
  induction k with
  | zero => simp [seedDist]
  | succ k ih =>
    rw [Function.iterate_succ_apply']
    have h1 := relaxStep_anti g ((relaxStep g)^[k] (seedDist src)) src
    rw [ih] at h1
    exact oLe_zero_iff.mp h1

/-- The seeded distance field at the source after any iteration count. -/
theorem dijkstraMap_seed (g : CostGrid) (src : Pos) :
    dijkstraMap g src src = some 0 := iterate_relax_seed g src _

theorem moveMult_pos (a b : Pos) : 0 < moveMult a b := by
  unfold moveMult; split <;> omega

/-! ## Properties of the neighbourhood -/

theorem mem_neighborsIn (g : CostGrid) {a b : Pos} (h : b ∈ neighborsIn g a) :
    inB g b = true ∧ chebDist a b = 1 := by
  simp only [neighborsIn, List.mem_filter, List.mem_map] at h
  obtain ⟨⟨δ, hδ, rfl⟩, hb⟩ := h
  refine ⟨hb, ?_⟩
  simp only [neighborDeltas, List.mem_cons, List.mem_singleton,
    List.not_mem_nil, or_false] at hδ
  rcases hδ with rfl | rfl | rfl | rfl | rfl | rfl | rfl | rfl <;>
    simp [chebDist] <;> omega

theorem neighborsIn_symm (g : CostGrid) {a b : Pos} (ha : inB g a = true)
    (h : b ∈ neighborsIn g a) : a ∈ neighborsIn g b := by
  simp only [neighborsIn, List.mem_filter, List.mem_map] at h ⊢
  obtain ⟨⟨δ, hδ, rfl⟩, _⟩ := h
  refine ⟨⟨(-δ.1, -δ.2), ?_, ?_⟩, ha⟩
  · simp only [neighborDeltas, List.mem_cons, List.mem_singleton,
      List.not_mem_nil, or_false] at hδ ⊢
    rcases hδ with rfl | rfl | rfl | rfl | rfl | rfl | rfl | rfl <;> simp
  · obtain ⟨ax, ay⟩ := a
    simp only [Prod.mk.injEq]
    constructor <;> ring

theorem chain_mem_inB (g : CostGrid) :
    ∀ (l : List Pos) (a : Pos), List.Chain (adjStep g) a l →
      ∀ x ∈ l, inB g x = true := by
  intro l
  induction l with
  | nil => intro a _ x hx; cases hx
  | cons b m ih =>
    intro a hchain x hx
    rcases List.chain_cons.mp hchain with ⟨hab, hbm⟩
    rcases List.mem_cons.mp hx with rfl | hx
    · exact (mem_neighborsIn g hab.1).1
    · exact ih b hbm x hx

/-! ## The descent invariant is established by the relaxation -/

theorem descInv_seed (g : CostGrid) (src : Pos) : DescInv g src (seedDist src) := by
  intro c v hc hv
  simp [seedDist, hc] at hv

theorem descInv_relax (g : CostGrid) (src : Pos) (d : Pos → Option Nat)
    (hd : DescInv g src d) : DescInv g src (relaxStep g d) := by
  intro c v hc hv
  by_cases hcond : inB g c = true ∧ 0 < g.cost c
  · have hval : relaxVal g d c = some v := by
      unfold relaxStep at hv; rwa [if_pos hcond] at hv
    unfold relaxVal at hval
    rcases foldl_omin_cases
        ((neighborsIn g c).map (fun n => oadd (d n) (g.cost c * moveMult n c)))
        (d c) with hcase | hcase
    · have hdc : d c = some v := by rw [← hcase, hval]
      obtain ⟨_, _, n, hn, hlt⟩ := hd c v hc hdc
      exact ⟨hcond.1, hcond.2,
        n, hn, oLt_of_oLe_of_oLt (relaxStep_anti g d n) hlt⟩
    · rw [hval] at hcase
      obtain ⟨n, hn, hcand⟩ := List.mem_map.mp hcase
      obtain ⟨u, hu, huv⟩ := oadd_eq_some hcand
      have hWpos : 0 < g.cost c * moveMult n c :=
        Nat.mul_pos hcond.2 (moveMult_pos n c)
      refine ⟨hcond.1, hcond.2, n, hn, ?_⟩
      have hlt : oLt (d n) (some v) := by
        rw [hu]; simp only [oLt]; omega
      exact oLt_of_oLe_of_oLt (relaxStep_anti g d n) hlt
  · have hdc : d c = some v := by
      unfold relaxStep at hv; rwa [if_neg hcond] at hv
    obtain ⟨hB, hcost, n, hn, hlt⟩ := hd c v hc hdc
    exact ⟨hB, hcost, n, hn, oLt_of_oLe_of_oLt (relaxStep_anti g d n) hlt⟩

theorem descInv_dijkstra (g : CostGrid) (src : Pos) :
    DescInv g src (dijkstraMap g src) := by
  unfold dijkstraMap
  generalize g.width * g.height = k
  induction k with
  | zero => exact descInv_seed g src
  | succ k ih =>
    rw [Function.iterate_succ_apply']
    exact descInv_relax g src _ ih

/-! ## A passable route makes the destination's distance finite -/

theorem reach_aux (g : CostGrid) (src : Pos) :
    ∀ (rest : List Pos) (a : Pos) (k : Nat),
      List.Chain (adjStep g) a rest → inB g a = true →
      (relaxStep g)^[k] (seedDist src) a ≠ none →
      (relaxStep g)^[k + rest.length] (seedDist src) (rest.getLastD a) ≠ none := by
  intro rest
  induction rest with
  | nil => intro a k _ _ h; simpa using h
  | cons b rest ih =>
    intro a k hchain ha hfin
    rcases List.chain_cons.mp hchain with ⟨hab, hchain'⟩
    have hb_mem : b ∈ neighborsIn g a := hab.1
    have hbB : inB g b = true := (mem_neighborsIn g hb_mem).1
    have hcost : 0 < g.cost b := hab.2
    have hmem_a : a ∈ neighborsIn g b := neighborsIn_symm g ha hb_mem
    have hfin' : (relaxStep g)^[k + 1] (seedDist src) b ≠ none := by
      rw [Function.iterate_succ_apply']
      set d := (relaxStep g)^[k] (seedDist src) with hd
      have hstep : relaxStep g d b = relaxVal g d b := by
        unfold relaxStep; rw [if_pos ⟨hbB, hcost⟩]
      rw [hstep]
      unfold relaxVal
      have hx : oadd (d a) (g.cost b * moveMult a b) ∈
          (neighborsIn g b).map (fun n => oadd (d n) (g.cost b * moveMult n b)) :=
        List.mem_map_of_mem _ hmem_a
      have hle := foldl_omin_le_mem
        ((neighborsIn g b).map (fun n => oadd (d n) (g.cost b * moveMult n b)))
        (d b) hx
      cases hda : d a with
      | none => exact absurd hda hfin
      | some u =>
        rw [hda] at hle
        have hle' : oLe
            (((neighborsIn g b).map
              (fun n => oadd (d n) (g.cost b * moveMult n b))).foldl omin (d b))
            (some (u + g.cost b * moveMult a b)) := by
          simpa [oadd] using hle
        obtain ⟨t, ht, _⟩ := oLe_some_iff.mp hle'
        rw [ht]
        simp
    have hres := ih b (k + 1) hchain' hbB hfin'
    have harith : k + 1 + rest.length = k + (b :: rest).length := by
      simp [List.length_cons]; omega
    rw [harith] at hres
    rwa [List.getLastD_cons]

/-! ## Cutting a route to a duplicate-free route -/

theorem getLastD_append_cons (p : List Pos) (a : Pos) (q : List Pos) (x : Pos) :
    (p ++ a :: q).getLastD x = q.getLastD a := by
  induction p generalizing x with
  | nil => simp only [List.nil_append, List.getLastD_cons]
  | cons y p ih => simp only [List.cons_append, List.getLastD_cons]; exact ih y

theorem chain_nodup_route {R : Pos → Pos → Prop} (n : Nat) :
    ∀ (l : List Pos), l.length ≤ n → ∀ (a : Pos), List.Chain R a l →
      ∃ l', List.Chain R a l' ∧ (a :: l').Nodup ∧
        l'.getLastD a = l.getLastD a ∧ ∀ x ∈ l', x ∈ l := by
  induction n with
  | zero =>
    intro l hl a _
    have : l = [] := List.length_eq_zero.mp (Nat.le_zero.mp hl)
    subst this
    exact ⟨[], List.Chain.nil, by simp, rfl, by simp⟩
  | succ n ih =>
    intro l hl a hchain
    by_cases hmem : a ∈ l
    · obtain ⟨p, q, rfl⟩ := List.append_of_mem hmem
      have hsuf : List.Chain R a q := by
        have h1 : List.Chain' R (a :: (p ++ a :: q)) := hchain
        have h2 : (a :: q) <:+ (a :: (p ++ a :: q)) := ⟨a :: p, by simp⟩
        exact (h1.suffix h2 : List.Chain' R (a :: q))
      have hlq : q.length ≤ n := by
        simp only [List.length_append, List.length_cons] at hl
        omega
      obtain ⟨l', h1, h2, h3, h4⟩ := ih q hlq a hsuf
      refine ⟨l', h1, h2, ?_, fun x hx => ?_⟩
      · rw [h3, getLastD_append_cons]
      · exact List.mem_append_right p (List.mem_cons_of_mem a (h4 x hx))
    · cases l with
      | nil => exact ⟨[], List.Chain.nil, by simp, rfl, by simp⟩
      | cons b m =>
        rcases List.chain_cons.mp hchain with ⟨hab, hbm⟩
        have hlm : m.length ≤ n := by
          simp only [List.length_cons] at hl; omega
        obtain ⟨m', h1, h2, h3, h4⟩ := ih m hlm b hbm
        refine ⟨b :: m', List.chain_cons.mpr ⟨hab, h1⟩, ?_, ?_, ?_⟩
        · refine List.nodup_cons.mpr ⟨?_, h2⟩
          intro hax
          rcases List.mem_cons.mp hax with rfl | hx
          · exact hmem (List.mem_cons_self _ _)
          · exact hmem (List.mem_cons_of_mem _ (h4 _ hx))
        · simp only [List.getLastD_cons]; exact h3
        · intro x hx
          rcases List.mem_cons.mp hx with rfl | hx
          · exact List.mem_cons_self _ _
          · exact List.mem_cons_of_mem _ (h4 _ hx)

/-! ## Counting in-bounds cells -/

theorem inB_mem_gridBox (g : CostGrid) (c : Pos) :
    inB g c = true ↔ c ∈ gridBox g := by
  simp [inB, gridBox, Finset.mem_product, Finset.mem_Ico, Bool.and_eq_true,
    decide_eq_true_eq, and_assoc]

theorem gridBox_card (g : CostGrid) :
    (gridBox g).card = g.width * g.height := by
  simp [gridBox, Finset.card_product, Int.card_Ico]

theorem nodup_inB_length_le (g : CostGrid) (l : List Pos) (hnd : l.Nodup)
    (hmem : ∀ x ∈ l, inB g x = true) : l.length ≤ g.width * g.height := by
  have h1 : l.toFinset.card = l.length := List.toFinset_card_of_nodup hnd
  have h2 : l.toFinset ⊆ gridBox g := by
    intro x hx
    exact (inB_mem_gridBox g x).mp (hmem x (List.mem_toFinset.mp hx))
  calc l.length = l.toFinset.card := h1.symm
    _ ≤ (gridBox g).card := Finset.card_le_card h2
    _ = g.width * g.height := gridBox_card g

/-- With a passable route from `src` to `dst`, the computed distance field is
finite at `dst`. -/
theorem dijkstraMap_finite_of_route (g : CostGrid) (src dst : Pos)
    (hsrc : inB g src = true) (hroute : HasRoute g src dst) :
    dijkstraMap g src dst ≠ none := by
  obtain ⟨rest, hne, hchain, hlast⟩ := hroute
  obtain ⟨rest', h1, h2, h3, h4⟩ :=
    chain_nodup_route rest.length rest le_rfl src hchain
  have hdst : rest'.getLastD src = dst := by
    rw [h3, List.getLastD_eq_getLast?, hlast]
    rfl
  have hmemB : ∀ x ∈ src :: rest', inB g x = true := by
    intro x hx
    rcases List.mem_cons.mp hx with rfl | hx
    · exact hsrc
    · exact chain_mem_inB g rest' src h1 x hx
  have hlen : (src :: rest').length ≤ g.width * g.height :=
    nodup_inB_length_le g _ h2 hmemB
  have hlen' : rest'.length ≤ g.width * g.height := by
    simp only [List.length_cons] at hlen; omega
  have hstart : (relaxStep g)^[0] (seedDist src) src ≠ none := by
    simp [seedDist]
  have hreach := reach_aux g src rest' src 0 h1 hsrc hstart
  rw [Nat.zero_add, hdst] at hreach
  cases hval : (relaxStep g)^[rest'.length] (seedDist src) dst with
  | none => exact absurd hval hreach
  | some u =>
    have hanti := iterate_relax_anti g (seedDist src) dst hlen'
    rw [hval] at hanti
    obtain ⟨t, ht, _⟩ := oLe_some_iff.mp hanti
    unfold dijkstraMap
    rw [ht]
    simp

/-! ## The best-neighbour selection -/

theorem foldl_better_spec (d : Pos → Option Nat) :
    ∀ (l : List Pos) (m : Pos), ∃ r, l.foldl (better d) (some m) = some r ∧
      (r = m ∨ r ∈ l) ∧ oLe (d r) (d m) ∧ ∀ x ∈ l, oLe (d r) (d x) := by
  intro l
  induction l with
  | nil =>
    intro m
    exact ⟨m, rfl, .inl rfl, oLe_refl _, by simp⟩
  | cons x l ih =>
    intro m
    by_cases hx : oLt (d x) (d m)
    · obtain ⟨r, h1, h2, h3, h4⟩ := ih x
      have hfold : ((x :: l).foldl (better d) (some m)) = l.foldl (better d) (some x) := by
        rw [List.foldl_cons]
        congr 1
        simp [better, hx]
      refine ⟨r, by rw [hfold]; exact h1, ?_, ?_, ?_⟩
      · rcases h2 with rfl | h2
        · exact .inr (List.mem_cons_self _ _)
        · exact .inr (List.mem_cons_of_mem _ h2)
      · exact oLe_trans h3 (oLe_of_oLt hx)
      · intro y hy
        rcases List.mem_cons.mp hy with rfl | hy
        · exact h3
        · exact h4 y hy
    · obtain ⟨r, h1, h2, h3, h4⟩ := ih m
      have hfold : ((x :: l).foldl (better d) (some m)) = l.foldl (better d) (some m) := by
        rw [List.foldl_cons]
        congr 1
        simp [better, hx]
      refine ⟨r, by rw [hfold]; exact h1, ?_, h3, ?_⟩
      · rcases h2 with rfl | h2
        · exact .inl rfl
        · exact .inr (List.mem_cons_of_mem _ h2)
      · intro y hy
        rcases List.mem_cons.mp hy with rfl | hy
        · exact oLe_trans h3 hx
        · exact h4 y hy

theorem bestNeighbor_spec (g : CostGrid) (d : Pos → Option Nat) (c : Pos)
    (hne : neighborsIn g c ≠ []) :
    ∃ r, bestNeighbor g d c = some r ∧ r ∈ neighborsIn g c ∧
      ∀ x ∈ neighborsIn g c, oLe (d r) (d x) := by
  unfold bestNeighbor
  cases hl : neighborsIn g c with
  | nil => exact absurd hl hne
  | cons x l =>
    obtain ⟨r, h1, h2, h3, h4⟩ := foldl_better_spec d l x
    refine ⟨r, ?_, ?_, ?_⟩
    · rw [List.foldl_cons]
      exact h1
    · rcases h2 with rfl | h2
      · exact List.mem_cons_self _ _
      · exact List.mem_cons_of_mem _ h2
    · intro y hy
      rcases List.mem_cons.mp hy with rfl | hy
      · exact h3
      · exact h4 y hy

/-! ## Correctness of the greedy descent -/

theorem descend_eq_single (g : CostGrid) (d : Pos → Option Nat) (fuel : Nat)
    (c : Pos) (v : Nat) (hc : d c = some v)
    (hstop : ∀ r, bestNeighbor g d c = some r → ¬ oLt (d r) (some v)) :
    descend g d fuel c = [c] := by
  cases fuel with
  | zero => rfl
  | succ fuel =>
    cases hbn : bestNeighbor g d c with
    | none => simp [descend, hbn]
    | some r =>
      have hnlt := hstop r hbn
      cases hdr : d r with
      | none => simp [descend, hbn, hc, hdr]
      | some w =>
        have hwv : ¬ w < v := by
          intro hlt
          exact hnlt (by rw [hdr]; exact hlt)
        simp [descend, hbn, hc, hdr, hwv]

theorem descend_eq_cons (g : CostGrid) (d : Pos → Option Nat) (fuel : Nat)
    (c r : Pos) (v w : Nat) (hc : d c = some v) (hbn : bestNeighbor g d c = some r)
    (hdr : d r = some w) (hwv : w < v) :
    descend g d (fuel + 1) c = c :: descend g d fuel r := by
  simp [descend, hbn, hc, hdr, hwv]

theorem descend_spec (g : CostGrid) (d : Pos → Option Nat) (src : Pos)
    (hInv : DescInv g src d) (hs0 : d src = some 0) :
    ∀ (fuel : Nat) (c : Pos) (v : Nat), d c = some v → v < fuel →
      (descend g d fuel c).head? = some c ∧
      (descend g d fuel c).getLast? = some src ∧
      List.Chain' (fun a b => b ∈ neighborsIn g a) (descend g d fuel c) ∧
      ∀ x ∈ (descend g d fuel c).dropLast, ∃ w, d x = some w ∧ 0 < w := by
  intro fuel
  induction fuel with
  | zero => intro c v _ hv; omega
  | succ fuel ih =>
    intro c v hc hv
    by_cases hcsrc : c = src
    · subst hcsrc
      have hv0 : v = 0 := by
        rw [hs0] at hc
        injection hc with h
        omega
      subst hv0
      have hres : descend g d (fuel + 1) c = [c] := by
        refine descend_eq_single g d (fuel + 1) c 0 hc ?_
        intro r _ hlt
        obtain ⟨u, _, hu0⟩ := oLt_some_iff.mp hlt
        omega
      rw [hres]
      refine ⟨rfl, rfl, by simp, by simp⟩
    · obtain ⟨hB, hcost, n0, hn0, hlt0⟩ := hInv c v hcsrc hc
      have hnonempty : neighborsIn g c ≠ [] := by
        intro h; rw [h] at hn0; cases hn0
      obtain ⟨r, hbest, hrmem, hrmin⟩ := bestNeighbor_spec g d c hnonempty
      have hrlt : oLt (d r) (some v) := oLt_of_oLe_of_oLt (hrmin n0 hn0) hlt0
      obtain ⟨w, hw, hwv⟩ := oLt_some_iff.mp hrlt
      have hres := descend_eq_cons g d fuel c r v w hc hbest hw hwv
      obtain ⟨ih1, ih2, ih3, ih4⟩ := ih r w hw (by omega)
      have htail : descend g d fuel r ≠ [] := by
        intro h; rw [h] at ih1; cases ih1
      rw [hres]
      obtain ⟨t, ts, hts⟩ := List.exists_cons_of_ne_nil htail
      refine ⟨rfl, ?_, ?_, ?_⟩
      · rw [hts, List.getLast?_cons_cons, ← hts]
        exact ih2
      · refine List.chain'_cons'.mpr ⟨?_, ih3⟩
        intro y hy
        rw [ih1, Option.mem_some_iff] at hy
        subst hy
        exact hrmem
      · intro x hx
        rw [hts] at hx
        have hxd : x ∈ c :: (t :: ts).dropLast := hx
        rcases List.mem_cons.mp hxd with rfl | hx'
        · exact ⟨v, hc, by omega⟩
        · rw [← hts] at hx'
          exact ih4 x hx'

/-- Correctness of the full hill-climb started at a cell with finite
distance. -/
theorem hillclimb_spec (g : CostGrid) (d : Pos → Option Nat) (src dst : Pos)
    (hInv : DescInv g src d) (hs0 : d src = some 0) (v : Nat)
    (hdst : d dst = some v) :
    (hillclimb g d dst).head? = some dst ∧
    (hillclimb g d dst).getLast? = some src ∧
    List.Chain' (fun a b => b ∈ neighborsIn g a) (hillclimb g d dst) ∧
    ∀ x ∈ (hillclimb g d dst).dropLast, ∃ w, d x = some w ∧ 0 < w := by
  have hres : hillclimb g d dst = descend g d (v + 1) dst := by
    simp [hillclimb, hdst]
  rw [hres]
  exact descend_spec g d src hInv hs0 (v + 1) dst v hdst (by omega)

/-- C1: for every cost grid with a passable route between source (the walker,
where the distance field is seeded) and target (the cell the hill-climb
starts from; the player in the game), the dijkstra + hillclimb + pop pipeline
of `get_path_to` returns a non-empty sequence of cells in which consecutive
cells are 8-neighbours, every cell has cost-grid value > 0, and which
excludes the source cell.  The sequence is ordered with the walk's final cell
(the target) first and the next step to take — a cell 8-adjacent to the
source — stored at the end, so the walk ends at the target and consuming the
path is pop-last. -/
theorem getPathOn_route_spec (g : CostGrid) (src dst : Pos)
    (hsrc : inB g src = true) (hne : src ≠ dst) (hroute : HasRoute g src dst) :
    getPathOn g src dst ≠ [] ∧
    (getPathOn g src dst).head? = some dst ∧
    List.Chain' (fun a b => chebDist a b = 1) (getPathOn g src dst) ∧
    (∀ c ∈ getPathOn g src dst, 0 < g.cost c) ∧
    src ∉ getPathOn g src dst ∧
    ∀ x, (getPathOn g src dst).getLast? = some x → chebDist x src = 1 := by
  have hInv := descInv_dijkstra g src
  have hs0 := dijkstraMap_seed g src
  have hfin := dijkstraMap_finite_of_route g src dst hsrc hroute
  obtain ⟨v, hv⟩ : ∃ v, dijkstraMap g src dst = some v := by
    cases hdd : dijkstraMap g src dst with
    | none => exact absurd hdd hfin
    | some v => exact ⟨v, rfl⟩
  obtain ⟨hh, hl, hch, hdl⟩ :=
    hillclimb_spec g (dijkstraMap g src) src dst hInv hs0 v hv
  have hP : getPathOn g src dst = (hillclimb g (dijkstraMap g src) dst).dropLast := rfl
  have hqne : hillclimb g (dijkstraMap g src) dst ≠ [] := by
    intro h; rw [h] at hh; cases hh
  obtain ⟨x0, q', hq'⟩ := List.exists_cons_of_ne_nil hqne
  have hx0 : x0 = dst := by
    rw [hq'] at hh
    simpa using hh
  have hq'ne : q' ≠ [] := by
    intro h
    rw [hq', h] at hl
    rw [show ([x0] : List Pos).getLast? = some x0 from rfl] at hl
    injection hl with h'
    exact hne (by rw [← h', hx0])
  obtain ⟨x1, q'', hq''⟩ := List.exists_cons_of_ne_nil hq'ne
  have hsplit : (hillclimb g (dijkstraMap g src) dst).dropLast ++ [src] =
      hillclimb g (dijkstraMap g src) dst :=
    List.dropLast_append_getLast? src hl
  have hnosrc : ∀ x ∈ (hillclimb g (dijkstraMap g src) dst).dropLast, x ≠ src := by
    intro x hx hxsrc
    obtain ⟨w, hw, hwpos⟩ := hdl x hx
    rw [hxsrc, hs0] at hw
    injection hw with h
    omega
  refine ⟨?_, ?_, ?_, ?_, ?_, ?_⟩
  · rw [hP, hq', hq'']
    simp
  · rw [hP, hq', hq'', hx0]
    rfl
  · rw [hP, List.dropLast_eq_take]
    exact (hch.take _).imp (fun a b hab => (mem_neighborsIn g hab).2)
  · intro c hc
    rw [hP] at hc
    obtain ⟨w, hw, hwpos⟩ := hdl c hc
    have hcsrc : c ≠ src := hnosrc c hc
    exact (hInv c w hcsrc hw).2.1
  · rw [hP]
    intro hmem
    exact hnosrc src hmem rfl
  · intro x hx
    rw [hP] at hx
    have hxmem : x ∈ (hillclimb g (dijkstraMap g src) dst).dropLast.getLast? := hx
    have hchain2 : List.Chain' (fun a b => b ∈ neighborsIn g a)
        ((hillclimb g (dijkstraMap g src) dst).dropLast ++ [src]) := by
      rw [hsplit]; exact hch
    have hadj := (List.chain'_append.mp hchain2).2.2 x hxmem src rfl
    exact (mem_neighborsIn g hadj).2

/-- C1, witness: on the 3×1 all-passable grid, with the walker at `(0, 0)`
and the target at `(2, 0)`, the route `(0,0) → (1,0) → (2,0)` exists and the
pipeline's output satisfies every clause of the specification. -/
theorem getPathOn_route_spec_witness :
    inB ⟨3, 1, fun _ => 1⟩ (0, 0) = true ∧
    ((0, 0) : Pos) ≠ ((2, 0) : Pos) ∧
    HasRoute ⟨3, 1, fun _ => 1⟩ (0, 0) (2, 0) ∧
    (getPathOn ⟨3, 1, fun _ => 1⟩ (0, 0) (2, 0) ≠ [] ∧
     (getPathOn ⟨3, 1, fun _ => 1⟩ (0, 0) (2, 0)).head? = some (2, 0) ∧
     List.Chain' (fun a b => chebDist a b = 1)
       (getPathOn ⟨3, 1, fun _ => 1⟩ (0, 0) (2, 0)) ∧
     (∀ c ∈ getPathOn ⟨3, 1, fun _ => 1⟩ (0, 0) (2, 0),
       0 < CostGrid.cost ⟨3, 1, fun _ => 1⟩ c) ∧
     ((0, 0) : Pos) ∉ getPathOn ⟨3, 1, fun _ => 1⟩ (0, 0) (2, 0) ∧
     ∀ x, (getPathOn ⟨3, 1, fun _ => 1⟩ (0, 0) (2, 0)).getLast? = some x →
       chebDist x (0, 0) = 1) :=
  by
  have hchain : List.Chain (adjStep ⟨3, 1, fun _ => 1⟩) (0, 0) [(1, 0), (2, 0)] :=
    List.Chain.cons (by decide) (List.Chain.cons (by decide) List.Chain.nil)
  have hroute : HasRoute ⟨3, 1, fun _ => 1⟩ (0, 0) (2, 0) :=
    ⟨[(1, 0), (2, 0)], by decide, hchain, by decide⟩
  exact ⟨by decide, by decide, hroute,
    getPathOn_route_spec ⟨3, 1, fun _ => 1⟩ (0, 0) (2, 0) (by decide) (by decide) hroute⟩
